import Mathlib

/-!
Verification of the data-alignment and gap-analysis core of the
cgm-data-processor repository, as documented in its API reference.

Timestamps are modelled as integers (minutes since an epoch), glucose,
carbohydrate and insulin values as rationals.  Missing values are `Option`.
Every definition is a shallow embedding of the corresponding pandas code
shown in the repository documentation (`Aligner._validate_timeline`,
`Aligner._align_insulin`, `Aligner._align_carbs`, `CGMProcessor.process_type`,
`InsulinProcessor.process_type`); where the implementing module is not part
of the sources (the gap inventory of `src/analysis/gaps.py` and the
meal-quality classifier of `src/analysis/meals.py`), the definition is
modelled from the specification and marked as such.
-/

/-! ### The fixed-frequency grid

`pd.date_range(start, end, freq)` produces `start, start+freq, ...` up to the
last instant not exceeding `end`.  `gridList s step n` is the list of `n`
instants starting at `s` with constant spacing `step`. -/

def gridList (s step : ℤ) : ℕ → List ℤ
  | 0 => []
  | n + 1 => s :: gridList (s + step) step n

/-- Shallow embedding of `pd.date_range(start=a, end=b, freq=step)`
(`CGMProcessor.process_type`, "Create complete timeline"): all instants
`a, a+step, ...` that do not pass `b`. -/
def dateRange (a b step : ℤ) : List ℤ := gridList a step (((b - a) / step).toNat + 1)

theorem gridList_length (s step : ℤ) (n : ℕ) : (gridList s step n).length = n := by
  induction n generalizing s with
  | zero => rfl
  | succ n ih => simp [gridList, ih]

theorem gridList_ne_nil (s step : ℤ) (n : ℕ) : gridList s step (n + 1) ≠ [] := by
  simp [gridList]

theorem mem_gridList {t s step : ℤ} {n : ℕ} :
    t ∈ gridList s step n ↔ ∃ k : ℕ, k < n ∧ t = s + step * k := by
  induction n generalizing s with
  | zero => simp [gridList]
  | succ n ih =>
    simp only [gridList, List.mem_cons, ih]
    constructor
    · rintro (rfl | ⟨k, hk, rfl⟩)
      · exact ⟨0, Nat.succ_pos n, by ring⟩
      · exact ⟨k + 1, by omega, by push_cast; ring⟩
    · rintro ⟨k, hk, rfl⟩
      cases k with
      | zero => left; simp
      | succ k => right; exact ⟨k, by omega, by push_cast; ring⟩

theorem gridList_chain (s step : ℤ) (n : ℕ) :
    (gridList s step n).Chain' (fun u v => v = u + step) := by
  induction n generalizing s with
  | zero => exact List.chain'_nil
  | succ n ih =>
    cases n with
    | zero => simp [gridList]
    | succ m =>
      simp only [gridList]
      exact List.Chain'.cons rfl (ih (s + step))

theorem gridList_head (s step : ℤ) (n : ℕ) :
    (gridList s step (n + 1)).head? = some s := rfl

theorem gridList_getLast? (s step : ℤ) (n : ℕ) :
    (gridList s step (n + 1)).getLast? = some (s + step * n) := by
  induction n generalizing s with
  | zero => simp [gridList]
  | succ n ih =>
    show (s :: (s + step) :: gridList (s + step + step) step n).getLast? = _
    rw [List.getLast?_cons_cons]
    show (gridList (s + step) step (n + 1)).getLast? = _
    rw [ih (s + step)]
    congr 1
    push_cast
    ring

theorem gridList_sorted {step : ℤ} (hstep : 0 < step) (s : ℤ) (n : ℕ) :
    (gridList s step n).Sorted (· < ·) := by
  rw [List.Sorted, ← List.chain'_iff_pairwise]
  exact (gridList_chain s step n).imp (fun h => by omega)

theorem gridList_nodup {step : ℤ} (hstep : 0 < step) (s : ℤ) (n : ℕ) :
    (gridList s step n).Nodup :=
  (gridList_sorted hstep s n).nodup

/-- Membership in `dateRange` when the endpoints are on the grid: exactly the
multiples of `step` between `a` and `b`. -/
theorem mem_dateRange {a b step t : ℤ} (hstep : 0 < step) (hab : a ≤ b)
    (hdvd : step ∣ b - a) :
    t ∈ dateRange a b step ↔ step ∣ t - a ∧ a ≤ t ∧ t ≤ b := by
  obtain ⟨m, hm⟩ := hdvd
  have hm0 : 0 ≤ m := by nlinarith
  have hdiv : (b - a) / step = m := by rw [hm]; exact Int.mul_ediv_cancel_left m (by omega)
  unfold dateRange
  rw [hdiv, mem_gridList]
  constructor
  · rintro ⟨k, hk, rfl⟩
    have hkm : (k : ℤ) ≤ m := by omega
    have h1 : step * (k : ℤ) ≤ step * m := by nlinarith
    have h2 : 0 ≤ step * (k : ℤ) := by positivity
    exact ⟨⟨k, by ring⟩, by linarith, by linarith⟩
  · rintro ⟨⟨k, hk⟩, hat, htb⟩
    have hk0 : 0 ≤ k := by nlinarith
    have hkm : k ≤ m := by nlinarith
    refine ⟨k.toNat, by omega, ?_⟩
    rw [Int.toNat_of_nonneg hk0]
    linarith

theorem dateRange_head {a b step : ℤ} : (dateRange a b step).head? = some a :=
  gridList_head a step _

theorem dateRange_getLast? {a b step : ℤ} (hstep : 0 < step) (hab : a ≤ b)
    (hdvd : step ∣ b - a) :
    (dateRange a b step).getLast? = some b := by
  obtain ⟨m, hm⟩ := hdvd
  have hm0 : 0 ≤ m := by nlinarith
  have hdiv : (b - a) / step = m := by rw [hm]; exact Int.mul_ediv_cancel_left m (by omega)
  unfold dateRange
  rw [hdiv, gridList_getLast?]
  congr 1
  rw [Int.toNat_of_nonneg hm0]
  linarith

/-! ### Rounding timestamps to the grid

`DatetimeIndex.round(freq)` rounds every timestamp to the nearest multiple of
the frequency, ties going to the even multiple (numpy round-half-even). -/

/-- Shallow embedding of `df.index.round(freq)` for one timestamp:
round to the nearest multiple of `step`, ties to the even multiple. -/
def roundGrid (step t : ℤ) : ℤ :=
  if 2 * (t % step) < step then step * (t / step)
  else if 2 * (t % step) > step then step * (t / step + 1)
  else if (t / step) % 2 = 0 then step * (t / step) else step * (t / step + 1)

theorem roundGrid_dvd (step t : ℤ) : step ∣ roundGrid step t := by
  unfold roundGrid
  split_ifs <;> exact Dvd.intro _ rfl

theorem roundGrid_eq_self {step t : ℤ} (hstep : 0 < step) (h : step ∣ t) :
    roundGrid step t = t := by
  obtain ⟨k, rfl⟩ := h
  have hq : step * k / step = k := Int.mul_ediv_cancel_left k (by omega)
  have hr : step * k % step = 0 := Int.mul_emod_right step k
  unfold roundGrid
  rw [hq, hr]
  split_ifs <;> omega

theorem roundGrid_lower {step m t : ℤ} (hstep : 0 < step) (hm : step ∣ m)
    (hmt : m ≤ t) : m ≤ roundGrid step t := by
  obtain ⟨j, rfl⟩ := hm
  have hj : j ≤ t / step := (Int.le_ediv_iff_mul_le hstep).mpr (by nlinarith)
  have hfloor : step * j ≤ step * (t / step) := by nlinarith
  unfold roundGrid
  split_ifs <;> nlinarith

theorem roundGrid_upper {step M t : ℤ} (hstep : 0 < step) (hM : step ∣ M)
    (htM : t ≤ M) : roundGrid step t ≤ M := by
  obtain ⟨j, rfl⟩ := hM
  have hemod := Int.emod_nonneg t (show step ≠ 0 by omega)
  have hte : step * (t / step) + t % step = t := Int.ediv_add_emod t step
  by_cases hr0 : t % step = 0
  · have heq : roundGrid step t = t := roundGrid_eq_self hstep ⟨t / step, by linarith⟩
    linarith
  · -- t lies strictly between grid points, so the grid point above it
    -- is at most the grid point `step * j ≥ t`
    have hjq : t / step < j := by
      by_contra hc
      push_neg at hc
      have h1 : step * j ≤ step * (t / step) := by nlinarith
      have : t % step ≤ 0 := by linarith
      omega
    have hup : step * (t / step + 1) ≤ step * j := by nlinarith
    have hfl : step * (t / step) ≤ step * (t / step + 1) := by nlinarith
    unfold roundGrid
    split_ifs <;> linarith

/-! ### Timeline validation (`Aligner._validate_timeline`)

The reference data is a table with an index; `isDatetime` records whether the
index is a `pd.DatetimeIndex`.  The four checks are embedded in the order the
code performs them.  Note the code tests pandas `is_monotonic_increasing`,
which is the NON-strict order (equal consecutive timestamps pass). -/

structure RefData where
  isDatetime : Bool
  index : List ℤ

inductive AlignmentError where
  | emptyData
  | noDatetimeIndex
  | notMonotonic
  | frequencyMismatch

/-- Consecutive differences, `reference_data.index.to_series().diff()`
(without the leading NaT). -/
def diffs (l : List ℤ) : List ℤ := List.zipWith (fun u v => v - u) l l.tail

/-- Pandas `is_monotonic_increasing`: non-strict monotonicity. -/
def isMonotonicIncreasing : List ℤ → Bool
  | [] => true
  | [_] => true
  | x :: y :: t => x ≤ y && isMonotonicIncreasing (y :: t)

theorem isMonotonicIncreasing_iff (l : List ℤ) :
    isMonotonicIncreasing l = true ↔ l.Chain' (· ≤ ·) := by
  induction l with
  | nil => simp [isMonotonicIncreasing]
  | cons x t ih =>
    cases t with
    | nil => simp [isMonotonicIncreasing]
    | cons y t2 =>
      rw [show isMonotonicIncreasing (x :: y :: t2) =
            (decide (x ≤ y) && isMonotonicIncreasing (y :: t2)) from rfl,
        Bool.and_eq_true, decide_eq_true_iff, List.chain'_cons, ih]

theorem isMonotonicIncreasing_eq_false_iff (l : List ℤ) :
    isMonotonicIncreasing l = false ↔ ¬ l.Chain' (· ≤ ·) := by
  rw [← isMonotonicIncreasing_iff]
  cases isMonotonicIncreasing l <;> simp

/-- `time_diffs.mode()[0]`: the most frequent difference; pandas `mode`
returns the modes sorted ascending, so ties pick the smallest.  `none` when
there are no differences (a single-row reference), where the code fails with
an uncaught IndexError — still a fatal failure of the run. -/
def modalDiff (l : List ℤ) : Option ℤ :=
  (diffs l).foldl
    (fun acc d =>
      match acc with
      | none => some d
      | some b =>
          if (diffs l).count d > (diffs l).count b ∨
              ((diffs l).count d = (diffs l).count b ∧ d < b) then some d
          else some b)
    none

/-- Shallow embedding of `Aligner._validate_timeline`. -/
def validateTimeline (d : RefData) (freq : ℤ) : Except AlignmentError Unit :=
  if d.index.isEmpty then .error .emptyData
  else if !d.isDatetime then .error .noDatetimeIndex
  else if !isMonotonicIncreasing d.index then .error .notMonotonic
  else
    match modalDiff d.index with
    | some md => if md = freq then .ok () else .error .frequencyMismatch
    | none => .error .frequencyMismatch

/-- C2 (counterexample): the claim says validation fails whenever the
reference index is not STRICTLY increasing, yet the code accepts an index
with a duplicated timestamp, because pandas `is_monotonic_increasing` is
non-strict and the duplicate does not change the modal spacing. -/
theorem validateTimeline_strict_counterexample :
    validateTimeline ⟨true, [0, 5, 5, 10, 15]⟩ 5 = .ok () ∧
      ¬ ([0, 5, 5, 10, 15] : List ℤ).Chain' (· < ·) := by
  constructor
  · rfl
  · norm_num [List.chain'_cons]

/-- C2 (amended): validation succeeds exactly when the reference series is
non-empty, has a datetime index, is NON-DECREASING (pandas
`is_monotonic_increasing`, duplicates allowed), and the modal spacing of
consecutive timestamps equals the requested frequency; otherwise it signals
a fatal error and no partial output is produced. -/
theorem validateTimeline_ok_iff (d : RefData) (freq : ℤ) :
    validateTimeline d freq = .ok () ↔
      d.index ≠ [] ∧ d.isDatetime = true ∧ d.index.Chain' (· ≤ ·) ∧
        modalDiff d.index = some freq := by
  unfold validateTimeline
  cases hmd : modalDiff d.index with
  | none =>
    split_ifs <;>
      simp_all [isMonotonicIncreasing_iff, isMonotonicIncreasing_eq_false_iff,
        List.isEmpty_iff]
  | some md =>
    split_ifs <;>
      simp_all [isMonotonicIncreasing_iff, isMonotonicIncreasing_eq_false_iff,
        List.isEmpty_iff]

/-! ### Unit conversion (`CGMProcessor.process_type`)

`df["value"] * 18.0182` converts mmol/L to mg/dL, and the generated secondary
columns are `combined_df[col] * 0.0555` (mg/dL to mmol/L). -/

def mmolToMgdl (v : ℚ) : ℚ := v * 18.0182

def mgdlToMmol (v : ℚ) : ℚ := v * 0.0555

/-- C9: a round trip through the two fixed conversion factors multiplies the
value by exactly 1.0000101 (the factors are not exact inverses), so it
reproduces the original value within a relative tolerance of 1.01e-5 —
about three orders of magnitude above double-precision rounding, and the
tightest tolerance the two constants admit. -/
theorem unit_roundTrip_tolerance (v : ℚ) :
    mgdlToMmol (mmolToMgdl v) = v * 1.0000101 ∧
      |mgdlToMmol (mmolToMgdl v) - v| ≤ 0.0000101 * |v| ∧
      mmolToMgdl (mgdlToMmol v) = v * 1.0000101 ∧
      |mmolToMgdl (mgdlToMmol v) - v| ≤ 0.0000101 * |v| := by
  have h1 : mgdlToMmol (mmolToMgdl v) = v * 1.0000101 := by
    unfold mgdlToMmol mmolToMgdl
    ring_nf
  have h2 : mmolToMgdl (mgdlToMmol v) = v * 1.0000101 := by
    unfold mgdlToMmol mmolToMgdl
    ring_nf
  have h3 : v * 1.0000101 - v = 0.0000101 * v := by ring_nf
  have hb : |v * 1.0000101 - v| ≤ 0.0000101 * |v| := by
    rw [h3, abs_mul, abs_of_nonneg (show (0:ℚ) ≤ 0.0000101 by norm_num)]
  exact ⟨h1, h1 ▸ hb, h2, h2 ▸ hb⟩

/-! ### Time alignment of the CGM stream (`CGMProcessor.process_type`)

`combined_df.index = combined_df.index.round("5min")`, duplicates averaged,
then `full_index = pd.date_range(start=index.min(), end=index.max(), freq)` and
the series is reindexed onto `full_index`, preserving nulls. -/

def roundedIndex (freq : ℤ) (ts : List ℤ) : List ℤ := ts.map (roundGrid freq)

def minOf : List ℤ → ℤ
  | [] => 0
  | [x] => x
  | x :: y :: t => min x (minOf (y :: t))

def maxOf : List ℤ → ℤ
  | [] => 0
  | [x] => x
  | x :: y :: t => max x (maxOf (y :: t))

theorem minOf_mem {l : List ℤ} (h : l ≠ []) : minOf l ∈ l := by
  induction l with
  | nil => simp at h
  | cons x t ih =>
    cases t with
    | nil => simp [minOf]
    | cons y t2 =>
      rw [show minOf (x :: y :: t2) = min x (minOf (y :: t2)) from rfl]
      rcases le_total x (minOf (y :: t2)) with hle | hle
      · rw [min_eq_left hle]; simp
      · rw [min_eq_right hle]
        exact List.mem_cons_of_mem x (ih (by simp))

theorem minOf_le {l : List ℤ} {x : ℤ} (h : x ∈ l) : minOf l ≤ x := by
  induction l with
  | nil => simp at h
  | cons a t ih =>
    cases t with
    | nil => simp at h; simp [h, minOf]
    | cons y t2 =>
      rw [show minOf (a :: y :: t2) = min a (minOf (y :: t2)) from rfl]
      rcases List.mem_cons.mp h with rfl | hm
      · exact min_le_left _ _
      · exact le_trans (min_le_right _ _) (ih hm)

theorem maxOf_mem {l : List ℤ} (h : l ≠ []) : maxOf l ∈ l := by
  induction l with
  | nil => simp at h
  | cons x t ih =>
    cases t with
    | nil => simp [maxOf]
    | cons y t2 =>
      rw [show maxOf (x :: y :: t2) = max x (maxOf (y :: t2)) from rfl]
      rcases le_total x (maxOf (y :: t2)) with hle | hle
      · rw [max_eq_right hle]
        exact List.mem_cons_of_mem x (ih (by simp))
      · rw [max_eq_left hle]; simp

theorem le_maxOf {l : List ℤ} {x : ℤ} (h : x ∈ l) : x ≤ maxOf l := by
  induction l with
  | nil => simp at h
  | cons a t ih =>
    cases t with
    | nil => simp at h; simp [h, maxOf]
    | cons y t2 =>
      rw [show maxOf (a :: y :: t2) = max a (maxOf (y :: t2)) from rfl]
      rcases List.mem_cons.mp h with rfl | hm
      · exact le_max_left _ _
      · exact le_trans (ih hm) (le_max_right _ _)

/-- The complete reference timeline built by the CGM processor: round every
timestamp to the grid, then `pd.date_range` from the rounded minimum to the
rounded maximum at the target frequency. -/
def fullIndex (freq : ℤ) (ts : List ℤ) : List ℤ :=
  dateRange (minOf (roundedIndex freq ts)) (maxOf (roundedIndex freq ts)) freq

/-- Reindexing the (possibly null-valued) reference measurement onto a
timeline: existing values are kept, absent instants become null, and existing
nulls stay null (`reindex` fills with NaN and performs no interpolation). -/
def lookupJoin (vals : List (ℤ × Option ℚ)) (g : ℤ) : Option ℚ :=
  match vals.find? (fun p => p.1 = g) with
  | some p => p.2
  | none => none

def reindexGlucose (vals : List (ℤ × Option ℚ)) (idx : List ℤ) : List (ℤ × Option ℚ) :=
  idx.map (fun g => (g, lookupJoin vals g))

theorem fullIndex_dvd_min (freq : ℤ) (ts : List ℤ) (hne : ts ≠ []) :
    freq ∣ minOf (roundedIndex freq ts) := by
  have hmem := minOf_mem (l := roundedIndex freq ts) (by simpa [roundedIndex])
  rw [show roundedIndex freq ts = ts.map (roundGrid freq) from rfl, List.mem_map] at hmem
  obtain ⟨t, _, ht⟩ := hmem
  rw [show roundedIndex freq ts = ts.map (roundGrid freq) from rfl, ← ht]
  exact roundGrid_dvd freq t

theorem fullIndex_dvd_max (freq : ℤ) (ts : List ℤ) (hne : ts ≠ []) :
    freq ∣ maxOf (roundedIndex freq ts) := by
  have hmem := maxOf_mem (l := roundedIndex freq ts) (by simpa [roundedIndex])
  rw [show roundedIndex freq ts = ts.map (roundGrid freq) from rfl, List.mem_map] at hmem
  obtain ⟨t, _, ht⟩ := hmem
  rw [show roundedIndex freq ts = ts.map (roundGrid freq) from rfl, ← ht]
  exact roundGrid_dvd freq t

theorem fullIndex_min_le_max (freq : ℤ) (ts : List ℤ) (hne : ts ≠ []) :
    minOf (roundedIndex freq ts) ≤ maxOf (roundedIndex freq ts) := by
  have h1 := minOf_le (maxOf_mem (l := roundedIndex freq ts) (by simpa [roundedIndex]))
  exact h1

/-- C3: the aligned output's index is a complete, strictly increasing,
duplicate-free sequence at constant step `freq`, spanning the rounded
reference minimum to the rounded reference maximum inclusive, with exactly
one row per instant (rows exist even where the measurement is null). -/
theorem fullIndex_grid_complete (freq : ℤ) (ts : List ℤ) (vals : List (ℤ × Option ℚ))
    (hne : ts ≠ []) (hfreq : 0 < freq) :
    (fullIndex freq ts).Chain' (fun u v => v = u + freq) ∧
      (fullIndex freq ts).Sorted (· < ·) ∧
      (fullIndex freq ts).Nodup ∧
      (fullIndex freq ts).head? = some (minOf (roundedIndex freq ts)) ∧
      (fullIndex freq ts).getLast? = some (maxOf (roundedIndex freq ts)) ∧
      (∀ t, t ∈ fullIndex freq ts ↔
        freq ∣ t - minOf (roundedIndex freq ts) ∧
          minOf (roundedIndex freq ts) ≤ t ∧ t ≤ maxOf (roundedIndex freq ts)) ∧
      (reindexGlucose vals (fullIndex freq ts)).map Prod.fst = fullIndex freq ts := by
  have hmm := fullIndex_min_le_max freq ts hne
  have hdvd : freq ∣ maxOf (roundedIndex freq ts) - minOf (roundedIndex freq ts) :=
    (fullIndex_dvd_max freq ts hne).sub (fullIndex_dvd_min freq ts hne)
  refine ⟨gridList_chain _ _ _, gridList_sorted hfreq _ _, gridList_nodup hfreq _ _,
    dateRange_head, dateRange_getLast? hfreq hmm hdvd,
    fun t => mem_dateRange hfreq hmm hdvd, ?_⟩
  simp only [reindexGlucose, List.map_map]
  have hcomp : (Prod.fst ∘ fun g : ℤ => (g, lookupJoin vals g)) = id := rfl
  rw [hcomp, List.map_id]

/-- C3 witness: timestamps 3 and 12 round to 5 and 10; the grid is `[5, 10]`. -/
theorem fullIndex_grid_complete_witness :
    ([3, 12] : List ℤ) ≠ [] ∧ (0:ℤ) < 5 ∧
      ((fullIndex 5 [3, 12]).Chain' (fun u v => v = u + 5) ∧
        (fullIndex 5 [3, 12]).Sorted (· < ·) ∧
        (fullIndex 5 [3, 12]).Nodup ∧
        (fullIndex 5 [3, 12]).head? = some (minOf (roundedIndex 5 [3, 12])) ∧
        (fullIndex 5 [3, 12]).getLast? = some (maxOf (roundedIndex 5 [3, 12])) ∧
        (∀ t, t ∈ fullIndex 5 [3, 12] ↔
          5 ∣ t - minOf (roundedIndex 5 [3, 12]) ∧
            minOf (roundedIndex 5 [3, 12]) ≤ t ∧ t ≤ maxOf (roundedIndex 5 [3, 12])) ∧
        (reindexGlucose [] (fullIndex 5 [3, 12])).map Prod.fst = fullIndex 5 [3, 12]) :=
  ⟨by simp, by norm_num, fullIndex_grid_complete 5 [3, 12] [] (by simp) (by norm_num)⟩

/-! ### Secondary stream alignment (`Aligner._align_carbs`, `Aligner._align_insulin`)

Each source timestamp is rounded to the alignment frequency
(`df.index = df.index.round(freq)`), values landing on the same grid instant
are summed (`resample(freq).sum()`), and the aggregated series is reindexed
onto the reference timeline with absent intervals set to zero
(`reindex(reference_index).fillna(0)`). -/

/-- Total of the event values whose rounded timestamp is the grid instant `g`. -/
def sumAt (freq : ℤ) (evs : List (ℤ × ℚ)) (g : ℤ) : ℚ :=
  ((evs.filter (fun e => roundGrid freq e.1 = g)).map Prod.snd).sum

/-- Shallow embedding of `Aligner._align_carbs`: one output row per reference
instant, holding the summed carbohydrates of that interval, zero when no event
landed there. -/
def alignCarbs (freq : ℤ) (evs : List (ℤ × ℚ)) (refIdx : List ℤ) : List (ℤ × ℚ) :=
  refIdx.map (fun g => (g, sumAt freq evs g))

/-- One row of the cleaned insulin table handed to the aligner. -/
structure InsulinRow where
  ts : ℤ
  dose : ℚ
  is_basal : Bool
  is_bolus : Bool

/-- `df["dose"].where(df["is_basal"], 0)`. -/
def basalEvents (rows : List InsulinRow) : List (ℤ × ℚ) :=
  rows.map (fun r => (r.ts, if r.is_basal then r.dose else 0))

/-- `df["dose"].where(df["is_bolus"], 0)`. -/
def bolusEvents (rows : List InsulinRow) : List (ℤ × ℚ) :=
  rows.map (fun r => (r.ts, if r.is_bolus then r.dose else 0))

/-- Shallow embedding of `Aligner._align_insulin`: the basal and bolus dose
columns over the reference timeline. -/
def alignInsulin (freq : ℤ) (rows : List InsulinRow) (refIdx : List ℤ) :
    List (ℤ × ℚ × ℚ) :=
  refIdx.map (fun g => (g, sumAt freq (basalEvents rows) g, sumAt freq (bolusEvents rows) g))

theorem sumAt_nil (freq g : ℤ) : sumAt freq [] g = 0 := rfl

theorem sumAt_cons (freq : ℤ) (e : ℤ × ℚ) (evs : List (ℤ × ℚ)) (g : ℤ) :
    sumAt freq (e :: evs) g =
      (if roundGrid freq e.1 = g then e.2 else 0) + sumAt freq evs g := by
  unfold sumAt
  by_cases h : roundGrid freq e.1 = g <;> simp [List.filter_cons, h]

theorem sum_map_add {α : Type} (I : List α) (f g : α → ℚ) :
    (I.map (fun x => f x + g x)).sum = (I.map f).sum + (I.map g).sum := by
  induction I with
  | nil => simp
  | cons x t ih => simp [ih]; ring

theorem sum_indicator_of_nodup {I : List ℤ} (hnd : I.Nodup) {a : ℤ} (ha : a ∈ I) (c : ℚ) :
    (I.map (fun g => if a = g then c else 0)).sum = c := by
  induction I with
  | nil => simp at ha
  | cons x t ih =>
    rcases List.mem_cons.mp ha with rfl | hm
    · have hax : a ∉ t := (List.nodup_cons.mp hnd).1
      have : (t.map (fun g => if a = g then c else 0)).sum = 0 := by
        apply List.sum_eq_zero
        intro y hy
        rw [List.mem_map] at hy
        obtain ⟨g, hg, rfl⟩ := hy
        have : a ≠ g := fun h => hax (h ▸ hg)
        simp [this]
      simp [this]
    · have hax : x ≠ a := by
        rintro rfl
        exact (List.nodup_cons.mp hnd).1 hm
      have := ih (List.nodup_cons.mp hnd).2 hm
      simp [this, Ne.symm hax]

/-- Key aggregation identity: summing the per-instant totals over a
duplicate-free index that contains every event's rounded timestamp recovers
the total of all event values. -/
theorem sum_sumAt (freq : ℤ) (evs : List (ℤ × ℚ)) (I : List ℤ) (hnd : I.Nodup)
    (hin : ∀ e ∈ evs, roundGrid freq e.1 ∈ I) :
    (I.map (sumAt freq evs)).sum = (evs.map Prod.snd).sum := by
  induction evs with
  | nil =>
    simp only [List.map_nil, List.sum_nil]
    apply List.sum_eq_zero
    intro y hy
    rw [List.mem_map] at hy
    obtain ⟨g, _, rfl⟩ := hy
    rfl
  | cons e evs ih =>
    have hmap : I.map (sumAt freq (e :: evs)) =
        I.map (fun g => (if roundGrid freq e.1 = g then e.2 else 0) + sumAt freq evs g) := by
      apply List.map_congr_left
      intro g _
      exact sumAt_cons freq e evs g
    rw [hmap, sum_map_add, sum_indicator_of_nodup hnd (hin e (by simp)) e.2,
      ih (fun x hx => hin x (by simp [hx]))]
    simp

theorem sumAt_eq_zero {freq g : ℤ} {evs : List (ℤ × ℚ)}
    (h : ∀ e ∈ evs, roundGrid freq e.1 ≠ g) : sumAt freq evs g = 0 := by
  unfold sumAt
  have : evs.filter (fun e => roundGrid freq e.1 = g) = [] := by
    rw [List.filter_eq_nil_iff]
    intro e he
    simp [h e he]
  rw [this]
  rfl

/-- A cleaned insulin row carries exactly one of the two flags, so its basal
and bolus contributions add up to its dose. -/
theorem sum_flag_split (rows : List InsulinRow)
    (hflags : ∀ r ∈ rows, r.is_basal ≠ r.is_bolus) :
    ((basalEvents rows).map Prod.snd).sum + ((bolusEvents rows).map Prod.snd).sum =
      (rows.map InsulinRow.dose).sum := by
  induction rows with
  | nil => simp [basalEvents, bolusEvents]
  | cons r t ih =>
    have hr := hflags r (by simp)
    have ht := ih (fun x hx => hflags x (List.mem_cons_of_mem r hx))
    simp only [basalEvents, bolusEvents, List.map_cons, List.sum_cons] at *
    cases hb : r.is_basal <;> cases ho : r.is_bolus <;> simp_all <;> linarith

/-- C4: rounding timestamps to the grid and summing duplicates within an
interval neither loses nor double-counts any event: when every source
timestamp lies in the reference range `[m, M]`, the total of the aligned
carbohydrate column equals the total of the cleaned input, and the totals of
the aligned basal and bolus insulin columns together equal the total of the
cleaned insulin doses (each cleaned row carrying exactly one of the two
flags). -/
theorem alignment_conservation (freq m M : ℤ) (evs : List (ℤ × ℚ))
    (rows : List InsulinRow)
    (hfreq : 0 < freq) (hm : freq ∣ m) (hM : freq ∣ M) (hmM : m ≤ M)
    (hevs : ∀ e ∈ evs, m ≤ e.1 ∧ e.1 ≤ M)
    (hrows : ∀ r ∈ rows, m ≤ r.ts ∧ r.ts ≤ M)
    (hflags : ∀ r ∈ rows, r.is_basal ≠ r.is_bolus) :
    ((alignCarbs freq evs (dateRange m M freq)).map Prod.snd).sum =
      (evs.map Prod.snd).sum ∧
    ((alignInsulin freq rows (dateRange m M freq)).map (fun p => p.2.1)).sum +
        ((alignInsulin freq rows (dateRange m M freq)).map (fun p => p.2.2)).sum =
      (rows.map InsulinRow.dose).sum := by
  have hnd : (dateRange m M freq).Nodup := gridList_nodup hfreq _ _
  have hdvd : freq ∣ M - m := hM.sub hm
  have hmem : ∀ t : ℤ, m ≤ t → t ≤ M → roundGrid freq t ∈ dateRange m M freq := by
    intro t h1 h2
    rw [mem_dateRange hfreq hmM hdvd]
    exact ⟨(roundGrid_dvd freq t).sub hm, roundGrid_lower hfreq hm h1,
      roundGrid_upper hfreq hM h2⟩
  constructor
  · have hsnd : (alignCarbs freq evs (dateRange m M freq)).map Prod.snd =
        (dateRange m M freq).map (sumAt freq evs) := by
      unfold alignCarbs
      rw [List.map_map]
      rfl
    rw [hsnd]
    exact sum_sumAt freq evs _ hnd (fun e he => hmem e.1 (hevs e he).1 (hevs e he).2)
  · have hbasal : (alignInsulin freq rows (dateRange m M freq)).map (fun p => p.2.1) =
        (dateRange m M freq).map (sumAt freq (basalEvents rows)) := by
      unfold alignInsulin
      rw [List.map_map]
      rfl
    have hbolus : (alignInsulin freq rows (dateRange m M freq)).map (fun p => p.2.2) =
        (dateRange m M freq).map (sumAt freq (bolusEvents rows)) := by
      unfold alignInsulin
      rw [List.map_map]
      rfl
    have hinb : ∀ e ∈ basalEvents rows, roundGrid freq e.1 ∈ dateRange m M freq := by
      intro e he
      rw [basalEvents, List.mem_map] at he
      obtain ⟨r, hr, rfl⟩ := he
      exact hmem r.ts (hrows r hr).1 (hrows r hr).2
    have hino : ∀ e ∈ bolusEvents rows, roundGrid freq e.1 ∈ dateRange m M freq := by
      intro e he
      rw [bolusEvents, List.mem_map] at he
      obtain ⟨r, hr, rfl⟩ := he
      exact hmem r.ts (hrows r hr).1 (hrows r hr).2
    rw [hbasal, hbolus, sum_sumAt freq _ _ hnd hinb, sum_sumAt freq _ _ hnd hino]
    exact sum_flag_split rows hflags

/-- C4 witness: three events inside the range `[0, 10]` on a 5-minute grid;
the aligned totals equal the input totals. -/
theorem alignment_conservation_witness :
    (0:ℤ) < 5 ∧
      ((alignCarbs 5 [(3, 7), (7, 2), (7, 3)] (dateRange 0 10 5)).map Prod.snd).sum =
          (([(3, 7), (7, 2), (7, 3)] : List (ℤ × ℚ)).map Prod.snd).sum ∧
      ((alignInsulin 5 [⟨4, 6, false, true⟩, ⟨9, 10, true, false⟩]
            (dateRange 0 10 5)).map (fun p => p.2.1)).sum +
          ((alignInsulin 5 [⟨4, 6, false, true⟩, ⟨9, 10, true, false⟩]
            (dateRange 0 10 5)).map (fun p => p.2.2)).sum =
        (([⟨4, 6, false, true⟩, ⟨9, 10, true, false⟩] : List InsulinRow).map
          InsulinRow.dose).sum :=
  ⟨by norm_num,
    alignment_conservation 5 0 10 [(3, 7), (7, 2), (7, 3)]
      [⟨4, 6, false, true⟩, ⟨9, 10, true, false⟩]
      (by norm_num) (by norm_num) (by norm_num) (by norm_num)
      (by intro e he; fin_cases he <;> norm_num)
      (by intro r hr; fin_cases hr <;> norm_num)
      (by intro r hr; fin_cases hr <;> simp)⟩

/-- C7: reference instants with no contributing source event get the value
zero in every secondary numeric column (`fillna(0)`); null reference glucose
values stay null (`reindex` without fill); and a secondary stream whose
events all land outside the reference timeline still yields a full-length
all-zero column rather than an error. -/
theorem alignSecondary_zero_fill (freq : ℤ) (evs : List (ℤ × ℚ))
    (rows : List InsulinRow) (refIdx : List ℤ) (vals : List (ℤ × Option ℚ)) :
    (∀ p ∈ alignCarbs freq evs refIdx,
      (∀ e ∈ evs, roundGrid freq e.1 ≠ p.1) → p.2 = 0) ∧
    (∀ p ∈ alignInsulin freq rows refIdx,
      (∀ r ∈ rows, roundGrid freq r.ts ≠ p.1) → p.2.1 = 0 ∧ p.2.2 = 0) ∧
    ((∀ e ∈ evs, roundGrid freq e.1 ∉ refIdx) →
      ∀ p ∈ alignCarbs freq evs refIdx, p.2 = 0) ∧
    ((alignCarbs freq evs refIdx).map Prod.fst = refIdx) ∧
    ((alignInsulin freq rows refIdx).map Prod.fst = refIdx) ∧
    (∀ p ∈ reindexGlucose vals refIdx,
      (∀ q ∈ vals, q.1 = p.1 → q.2 = none) → p.2 = none) := by
  refine ⟨?_, ?_, ?_, ?_, ?_, ?_⟩
  · intro p hp hno
    rw [alignCarbs, List.mem_map] at hp
    obtain ⟨g, _, rfl⟩ := hp
    exact sumAt_eq_zero hno
  · intro p hp hno
    rw [alignInsulin, List.mem_map] at hp
    obtain ⟨g, _, rfl⟩ := hp
    constructor
    · apply sumAt_eq_zero
      intro e he
      rw [basalEvents, List.mem_map] at he
      obtain ⟨r, hr, rfl⟩ := he
      exact hno r hr
    · apply sumAt_eq_zero
      intro e he
      rw [bolusEvents, List.mem_map] at he
      obtain ⟨r, hr, rfl⟩ := he
      exact hno r hr
  · intro hout p hp
    rw [alignCarbs, List.mem_map] at hp
    obtain ⟨g, hg, rfl⟩ := hp
    apply sumAt_eq_zero
    intro e he heq
    exact hout e he (heq ▸ hg)
  · rw [alignCarbs, List.map_map]
    have hcomp : (Prod.fst ∘ fun g : ℤ => (g, sumAt freq evs g)) = id := rfl
    rw [hcomp, List.map_id]
  · rw [alignInsulin, List.map_map]
    have hcomp : (Prod.fst ∘ fun g : ℤ =>
        (g, sumAt freq (basalEvents rows) g, sumAt freq (bolusEvents rows) g)) = id := rfl
    rw [hcomp, List.map_id]
  · intro p hp hnull
    rw [reindexGlucose, List.mem_map] at hp
    obtain ⟨g, _, rfl⟩ := hp
    show lookupJoin vals g = none
    unfold lookupJoin
    cases hf : vals.find? (fun q => q.1 = g) with
    | none => rfl
    | some q =>
      have hqm : q ∈ vals := List.mem_of_find?_eq_some hf
      have hqe : q.1 = g := by
        have := List.find?_some hf
        exact of_decide_eq_true this
      exact hnull q hqm hqe

/-! ### Gap handling in the CGM processor (`CGMProcessor.process_type`)

The column lives on the complete 5-minute grid; position `j` holds the value
at the `j`-th grid instant.  The code computes
`gap_groups = (~combined_df[col].isna()).cumsum()` and the per-group null
counts BEFORE interpolating, interpolates linearly forward with
`limit=interpolation_limit`, and finally, for each group whose null run
exceeded the limit, sets the entries that match
`(gap_groups == gap_group) & combined_df[col].isna()` — evaluated on the
POST-interpolation column — back to NaN. -/

/-- `(~isna()).cumsum()`: each position is labelled with the number of
non-null entries up to and including it. -/
def gapGroupsAux (c : ℕ) : List (Option ℚ) → List ℕ
  | [] => []
  | some _ :: t => (c + 1) :: gapGroupsAux (c + 1) t
  | none :: t => c :: gapGroupsAux c t

def gapGroups (xs : List (Option ℚ)) : List ℕ := gapGroupsAux 0 xs

/-- `combined_df[combined_df[col].isna()].groupby(gap_groups).size()` for one
group: how many nulls of `xs` carry the label `g`. -/
def nullCountInGroup (xs : List (Option ℚ)) (g : ℕ) : ℕ :=
  ((xs.zip (gapGroups xs)).filter (fun p => p.1 = none ∧ p.2 = g)).length

/-- `gap_size[gap_size > interpolation_limit]`: group `g` is a "large gap". -/
def isLargeGroup (xs : List (Option ℚ)) (L g : ℕ) : Bool :=
  L < nullCountInGroup xs g

/-- Index and value of the last non-null entry strictly before position `j`. -/
def prevValid (xs : List (Option ℚ)) (j : ℕ) : Option (ℕ × ℚ) :=
  ((List.range j).reverse.filterMap
    (fun i => (xs.getD i none).map (fun v => (i, v)))).head?

/-- Index and value of the first non-null entry strictly after position `j`. -/
def nextValid (xs : List (Option ℚ)) (j : ℕ) : Option (ℕ × ℚ) :=
  (((List.range xs.length).drop (j + 1)).filterMap
    (fun i => (xs.getD i none).map (fun v => (i, v)))).head?

/-- One position of
`interpolate(method="linear", limit=L, limit_direction="forward")`:
a null with a previous valid value at distance at most `L` is filled on the
straight line to the next valid value (or held constant when none follows);
nulls further than `L` into a run, and nulls with no previous valid value,
stay null. -/
def interpAt (xs : List (Option ℚ)) (L j : ℕ) : Option ℚ :=
  match xs.getD j none with
  | some v => some v
  | none =>
    match prevValid xs j with
    | none => none
    | some pv =>
      if j - pv.1 ≤ L then
        match nextValid xs j with
        | some qv =>
            some (pv.2 + (qv.2 - pv.2) * (((j : ℚ) - (pv.1 : ℚ)) / ((qv.1 : ℚ) - (pv.1 : ℚ))))
        | none => some pv.2
      else none

def interpolateFwd (xs : List (Option ℚ)) (L : ℕ) : List (Option ℚ) :=
  (List.range xs.length).map (interpAt xs L)

/-- The "reset large gaps back to NaN" pass exactly as coded: the mask keeps
the positions of a large group that are STILL null after interpolation and
sets those to NaN. -/
def resetLargeGaps (orig filled : List (Option ℚ)) (L : ℕ) : List (Option ℚ) :=
  (List.range orig.length).map (fun j =>
    if isLargeGroup orig L ((gapGroups orig).getD j 0) ∧ filled.getD j none = none
    then none else filled.getD j none)

/-- The gap-handling step of `CGMProcessor.process_type`. -/
def processGaps (xs : List (Option ℚ)) (L : ℕ) : List (Option ℚ) :=
  resetLargeGaps xs (interpolateFwd xs L) L

/-- The coded reset pass can never change anything: a masked position must
already be null after interpolation, and it is then set to null again. -/
theorem resetLargeGaps_noop (orig filled : List (Option ℚ)) (L : ℕ) :
    resetLargeGaps orig filled L =
      (List.range orig.length).map (fun j => filled.getD j none) := by
  unfold resetLargeGaps
  apply List.map_congr_left
  intro j _
  split_ifs with h
  · exact h.2.symm
  · rfl

/-- C1 (code evaluated at the failing input): with interpolation limit 4, a
run of five consecutive nulls between the values 10 and 40 keeps its first
four interpolated values — the reset pass is a no-op because its mask is
computed from the post-interpolation nulls — so a gap longer than the limit
contains non-null values, contradicting the claimed boundedness. -/
theorem processGaps_long_gap_keeps_values :
    processGaps [some 10, none, none, none, none, none, some 40] 4 =
      [some 10, some 15, some 20, some 25, some 30, none, some 40] ∧
    ∃ j, 1 ≤ j ∧ j ≤ 5 ∧
      (processGaps [some 10, none, none, none, none, none, some 40] 4).getD j none ≠ none := by
  constructor
  · norm_num [processGaps, resetLargeGaps, interpolateFwd, interpAt, prevValid,
      nextValid, isLargeGroup, nullCountInGroup, gapGroups, gapGroupsAux,
      List.range_succ]
    norm_num [List.filter_cons, List.filter_nil]
    simp
  · refine ⟨1, by norm_num, by norm_num, ?_⟩
    norm_num [processGaps, resetLargeGaps, interpolateFwd, interpAt, prevValid,
      nextValid, isLargeGroup, nullCountInGroup, gapGroups, gapGroupsAux,
      List.range_succ]
    norm_num [List.filter_cons, List.filter_nil]
    simp

/-! ### The gap inventory

Modelled from the spec: the gap detector of `src/analysis/gaps.py`
(`analyse_glucose_gaps`) is not part of the sources; the spec defines it as
"partition the index into maximal runs where the value is null; for each run
emit (start instant, end instant = start-of-run-end + one grid step, duration
in minutes = run-length x grid-step-minutes)", consistent with the run
grouping shown for `CGMProcessor.process_type` and with the worked examples
in the documentation.  A run is recorded as (first position, length). -/

def shiftRuns (rs : List (ℕ × ℕ)) : List (ℕ × ℕ) := rs.map (fun p => (p.1 + 1, p.2))

/-- Prepend one null in front of a column whose runs are known: it either
merges with a run starting at position 0 or opens a fresh run of length 1. -/
def consNoneRuns : List (ℕ × ℕ) → List (ℕ × ℕ)
  | [] => [(0, 1)]
  | (0, l) :: rest => (0, l + 1) :: shiftRuns rest
  | (i + 1, l) :: rest => (0, 1) :: shiftRuns ((i + 1, l) :: rest)

/-- Modelled from the spec: the maximal runs of null values of a column,
as (start position, length) pairs in increasing position order. -/
def nullRuns : List (Option ℚ) → List (ℕ × ℕ)
  | [] => []
  | some _ :: t => shiftRuns (nullRuns t)
  | none :: t => consNoneRuns (nullRuns t)

/-- A gap record as exported by the gap detector. -/
structure GapRecord where
  start_time : ℤ
  end_time : ℤ
  length_minutes : ℤ

/-- Modelled from the spec: the gap inventory of a reference column living on
the grid `t0, t0+step, ...`: each maximal null run becomes one record with
`end_time` one grid step past the run's last missing instant and
`length_minutes = run-length x step`. -/
def gapRecords (t0 step : ℤ) (xs : List (Option ℚ)) : List GapRecord :=
  (nullRuns xs).map (fun p =>
    ⟨t0 + step * p.1, t0 + step * ((p.1 : ℤ) + p.2), step * p.2⟩)

theorem mem_shiftRuns {p : ℕ × ℕ} {rs : List (ℕ × ℕ)} :
    p ∈ shiftRuns rs ↔ ∃ q ∈ rs, p = (q.1 + 1, q.2) := by
  simp [shiftRuns, List.mem_map, eq_comm]

/-- Coverage: position `j` is inside some recorded run exactly when the
column is null at `j`. -/
theorem nullRuns_covers (xs : List (Option ℚ)) : ∀ j : ℕ,
    (∃ p ∈ nullRuns xs, p.1 ≤ j ∧ j < p.1 + p.2) ↔ xs[j]? = some none := by
  induction xs with
  | nil => intro j; simp [nullRuns]
  | cons x t ih =>
    intro j
    cases x with
    | some v =>
      rw [show nullRuns (some v :: t) = shiftRuns (nullRuns t) from rfl]
      cases j with
      | zero =>
        simp only [List.getElem?_cons_zero]
        constructor
        · rintro ⟨p, hp, h1, h2⟩
          rw [mem_shiftRuns] at hp
          obtain ⟨q, _, rfl⟩ := hp
          omega
        · intro h
          exact absurd h (by simp)
      | succ j =>
        rw [List.getElem?_cons_succ, ← ih j]
        constructor
        · rintro ⟨p, hp, h1, h2⟩
          rw [mem_shiftRuns] at hp
          obtain ⟨q, hq, rfl⟩ := hp
          exact ⟨q, hq, by omega, by omega⟩
        · rintro ⟨q, hq, h1, h2⟩
          exact ⟨(q.1 + 1, q.2), mem_shiftRuns.mpr ⟨q, hq, rfl⟩, by omega, by omega⟩
    | none =>
      rw [show nullRuns (none :: t) = consNoneRuns (nullRuns t) from rfl]
      cases hr : nullRuns t with
      | nil =>
        cases j with
        | zero => simp [consNoneRuns]
        | succ j =>
          rw [List.getElem?_cons_succ, ← ih j, hr]
          simp [consNoneRuns]
      | cons q rest =>
        obtain ⟨i, l⟩ := q
        cases i with
        | zero =>
          rw [show consNoneRuns ((0, l) :: rest) = (0, l + 1) :: shiftRuns rest from rfl]
          cases j with
          | zero =>
            simp only [List.getElem?_cons_zero]
            constructor
            · intro _; trivial
            · intro _
              exact ⟨(0, l + 1), by simp, by omega, by omega⟩
          | succ j =>
            rw [List.getElem?_cons_succ, ← ih j, hr]
            constructor
            · rintro ⟨p, hp, h1, h2⟩
              rcases List.mem_cons.mp hp with rfl | hp2
              · exact ⟨(0, l), by simp, by omega, by omega⟩
              · rw [mem_shiftRuns] at hp2
                obtain ⟨q2, hq2, rfl⟩ := hp2
                exact ⟨q2, List.mem_cons_of_mem _ hq2, by omega, by omega⟩
            · rintro ⟨p, hp, h1, h2⟩
              rcases List.mem_cons.mp hp with rfl | hp2
              · exact ⟨(0, l + 1), by simp, by omega, by omega⟩
              · exact ⟨(p.1 + 1, p.2),
                  List.mem_cons_of_mem _ (mem_shiftRuns.mpr ⟨p, hp2, rfl⟩),
                  by omega, by omega⟩
        | succ i =>
          rw [show consNoneRuns ((i + 1, l) :: rest) =
              (0, 1) :: shiftRuns ((i + 1, l) :: rest) from rfl]
          cases j with
          | zero =>
            simp only [List.getElem?_cons_zero]
            constructor
            · intro _; trivial
            · intro _
              exact ⟨(0, 1), by simp, by omega, by omega⟩
          | succ j =>
            rw [List.getElem?_cons_succ, ← ih j, hr]
            constructor
            · rintro ⟨p, hp, h1, h2⟩
              rcases List.mem_cons.mp hp with rfl | hp2
              · omega
              · rw [mem_shiftRuns] at hp2
                obtain ⟨q2, hq2, rfl⟩ := hp2
                exact ⟨q2, hq2, by omega, by omega⟩
            · rintro ⟨p, hp, h1, h2⟩
              exact ⟨(p.1 + 1, p.2),
                List.mem_cons_of_mem _ (mem_shiftRuns.mpr ⟨p, hp, rfl⟩),
                by omega, by omega⟩

/-- Runs listed from position bound `b` on: each run starts at or after `b`,
has positive length, and the next run starts at least one position past the
current run's end (maximality: runs are separated by a non-null). -/
def SepFrom : ℕ → List (ℕ × ℕ) → Prop
  | _, [] => True
  | b, p :: rest => b ≤ p.1 ∧ 0 < p.2 ∧ SepFrom (p.1 + p.2 + 1) rest

theorem sepFrom_mono {b b' : ℕ} (h : b' ≤ b) :
    ∀ {rs : List (ℕ × ℕ)}, SepFrom b rs → SepFrom b' rs := by
  intro rs
  cases rs with
  | nil => intro _; trivial
  | cons p rest =>
    intro hs
    exact ⟨le_trans h hs.1, hs.2.1, hs.2.2⟩

theorem sepFrom_shift {b : ℕ} {rs : List (ℕ × ℕ)} (h : SepFrom b rs) :
    SepFrom (b + 1) (shiftRuns rs) := by
  induction rs generalizing b with
  | nil => trivial
  | cons p rest ih =>
    obtain ⟨h1, h2, h3⟩ := h
    rw [show shiftRuns (p :: rest) = (p.1 + 1, p.2) :: shiftRuns rest from rfl]
    exact ⟨by omega, h2, sepFrom_mono (by omega) (ih h3)⟩

theorem nullRuns_sepFrom (xs : List (Option ℚ)) : SepFrom 0 (nullRuns xs) := by
  induction xs with
  | nil => trivial
  | cons x t ih =>
    cases x with
    | some v =>
      rw [show nullRuns (some v :: t) = shiftRuns (nullRuns t) from rfl]
      exact sepFrom_mono (by omega) (sepFrom_shift ih)
    | none =>
      rw [show nullRuns (none :: t) = consNoneRuns (nullRuns t) from rfl]
      cases hr : nullRuns t with
      | nil => exact ⟨le_refl 0, by omega, trivial⟩
      | cons q rest =>
        rw [hr] at ih
        obtain ⟨i, l⟩ := q
        cases i with
        | zero =>
          rw [show consNoneRuns ((0, l) :: rest) = (0, l + 1) :: shiftRuns rest from rfl]
          exact ⟨le_refl 0, by omega,
            sepFrom_mono (by omega) (sepFrom_shift ih.2.2)⟩
        | succ i =>
          rw [show consNoneRuns ((i + 1, l) :: rest) =
              (0, 1) :: shiftRuns ((i + 1, l) :: rest) from rfl]
          have h1 : SepFrom 1 ((i + 1, l) :: rest) := ⟨by omega, ih.2.1, ih.2.2⟩
          exact ⟨le_refl 0, by omega, sepFrom_shift h1⟩

theorem sepFrom_pos {b : ℕ} {rs : List (ℕ × ℕ)} (h : SepFrom b rs) :
    ∀ p ∈ rs, 0 < p.2 := by
  induction rs generalizing b with
  | nil => intro p hp; simp at hp
  | cons q rest ih =>
    intro p hp
    rcases List.mem_cons.mp hp with rfl | hp2
    · exact h.2.1
    · exact ih h.2.2 p hp2

theorem sepFrom_chain {b : ℕ} {rs : List (ℕ × ℕ)} (h : SepFrom b rs) :
    rs.Chain' (fun p q => p.1 + p.2 < q.1) := by
  induction rs generalizing b with
  | nil => exact List.chain'_nil
  | cons p rest ih =>
    cases rest with
    | nil => simp
    | cons q rest2 =>
      exact List.Chain'.cons (by have := h.2.2.1; omega) (ih h.2.2)

/-- C6: the gap inventory partitions exactly the null instants of the
reference column: each record's `length_minutes` equals `end_time -
start_time` and is a positive multiple of the grid step; a grid instant is
null exactly when it falls inside some record's `[start_time, end_time)`
span; and consecutive records are strictly separated (non-overlapping and
non-adjacent, since adjacent missing instants are merged into one run). -/
theorem gapRecords_partition_nulls (t0 step : ℤ) (xs : List (Option ℚ))
    (hstep : 0 < step) :
    (∀ rec ∈ gapRecords t0 step xs,
      rec.length_minutes = rec.end_time - rec.start_time ∧
      0 < rec.length_minutes ∧
      (∃ k : ℕ, 0 < k ∧ rec.length_minutes = step * k)) ∧
    (∀ j : ℕ, j < xs.length →
      (xs[j]? = some none ↔
        ∃ rec ∈ gapRecords t0 step xs,
          rec.start_time ≤ t0 + step * j ∧ t0 + step * j < rec.end_time)) ∧
    (gapRecords t0 step xs).Chain' (fun a b => a.end_time < b.start_time) := by
  have hsep := nullRuns_sepFrom xs
  refine ⟨?_, ?_, ?_⟩
  · intro rec hrec
    rw [gapRecords, List.mem_map] at hrec
    obtain ⟨p, hp, rfl⟩ := hrec
    have hpos : 0 < p.2 := sepFrom_pos hsep p hp
    refine ⟨by push_cast; ring, ?_, p.2, hpos, rfl⟩
    have : (0 : ℤ) < (p.2 : ℤ) := by exact_mod_cast hpos
    positivity
  · intro j hj
    rw [← nullRuns_covers xs j]
    constructor
    · rintro ⟨p, hp, h1, h2⟩
      have hc1 : (p.1 : ℤ) ≤ (j : ℤ) := by exact_mod_cast h1
      have hc2 : (j : ℤ) < (p.1 : ℤ) + (p.2 : ℤ) := by exact_mod_cast h2
      have hm1 : step * (p.1 : ℤ) ≤ step * (j : ℤ) :=
        mul_le_mul_of_nonneg_left hc1 (le_of_lt hstep)
      have hm2 : step * (j : ℤ) < step * ((p.1 : ℤ) + (p.2 : ℤ)) :=
        mul_lt_mul_of_pos_left hc2 hstep
      refine ⟨⟨t0 + step * p.1, t0 + step * ((p.1 : ℤ) + p.2), step * p.2⟩,
        List.mem_map.mpr ⟨p, hp, rfl⟩, ?_, ?_⟩
      · show t0 + step * (p.1 : ℤ) ≤ t0 + step * (j : ℤ)
        linarith
      · show t0 + step * (j : ℤ) < t0 + step * ((p.1 : ℤ) + (p.2 : ℤ))
        linarith
    · rintro ⟨rec, hrec, h1, h2⟩
      rw [gapRecords, List.mem_map] at hrec
      obtain ⟨p, hp, rfl⟩ := hrec
      simp only at h1 h2
      refine ⟨p, hp, ?_, ?_⟩
      · have : step * (p.1 : ℤ) ≤ step * (j : ℤ) := by linarith
        have h3 : (p.1 : ℤ) ≤ (j : ℤ) := le_of_mul_le_mul_left this hstep
        exact_mod_cast h3
      · have hmul : step * (j : ℤ) < step * ((p.1 : ℤ) + (p.2 : ℤ)) := by linarith
        have h3 : (j : ℤ) < (p.1 : ℤ) + (p.2 : ℤ) :=
          lt_of_mul_lt_mul_left hmul (by omega)
        exact_mod_cast h3
  · rw [gapRecords]
    rw [List.chain'_map]
    apply List.Chain'.imp ?_ (sepFrom_chain hsep)
    intro p q hpq
    have hc : (p.1 : ℤ) + (p.2 : ℤ) < (q.1 : ℤ) := by exact_mod_cast hpq
    have hm : step * ((p.1 : ℤ) + (p.2 : ℤ)) < step * (q.1 : ℤ) :=
      mul_lt_mul_of_pos_left hc hstep
    show t0 + step * ((p.1 : ℤ) + (p.2 : ℤ)) < t0 + step * (q.1 : ℤ)
    linarith

/-- C6 witness: column `[some 1, none, none, some 2]` on the grid starting at
0 with 5-minute steps has the single gap record (5, 15, 10). -/
theorem gapRecords_partition_nulls_witness :
    (0:ℤ) < 5 ∧
      ((∀ rec ∈ gapRecords 0 5 [some 1, none, none, some 2],
        rec.length_minutes = rec.end_time - rec.start_time ∧
        0 < rec.length_minutes ∧
        (∃ k : ℕ, 0 < k ∧ rec.length_minutes = 5 * k)) ∧
      (∀ j : ℕ, j < ([some 1, none, none, some 2] : List (Option ℚ)).length →
        (([some 1, none, none, some 2] : List (Option ℚ))[j]? = some none ↔
          ∃ rec ∈ gapRecords 0 5 [some 1, none, none, some 2],
            rec.start_time ≤ 0 + 5 * j ∧ 0 + 5 * j < rec.end_time)) ∧
      (gapRecords 0 5 [some 1, none, none, some 2]).Chain'
        (fun a b => a.end_time < b.start_time)) :=
  ⟨by norm_num, gapRecords_partition_nulls 0 5 [some 1, none, none, some 2] (by norm_num)⟩

/-! ### Top-N longest gaps

Modelled from the spec: the largest-gaps listing of `analyse_glucose_gaps`
(`src/analysis/gaps.py`, not part of the sources) sorts the inventory
descending by duration, breaking ties by the earlier start time, and takes
the first N records. -/

def gapBefore (a b : GapRecord) : Bool :=
  decide (b.length_minutes < a.length_minutes ∨
    (a.length_minutes = b.length_minutes ∧ a.start_time ≤ b.start_time))

/-- Modelled from the spec: the top-`n` longest gaps. -/
def largestGaps (n : ℕ) (recs : List GapRecord) : List GapRecord :=
  (recs.mergeSort gapBefore).take n

theorem gapBefore_trans (a b c : GapRecord)
    (h1 : gapBefore a b = true) (h2 : gapBefore b c = true) : gapBefore a c = true := by
  unfold gapBefore at *
  rw [decide_eq_true_iff] at *
  rcases h1 with h1 | ⟨h1e, h1s⟩ <;> rcases h2 with h2 | ⟨h2e, h2s⟩
  · exact Or.inl (by omega)
  · exact Or.inl (by omega)
  · exact Or.inl (by omega)
  · exact Or.inr ⟨by omega, by omega⟩

theorem gapBefore_total (a b : GapRecord) : (gapBefore a b || gapBefore b a) = true := by
  unfold gapBefore
  rcases lt_trichotomy a.length_minutes b.length_minutes with h | h | h
  · simp [h]
  · rcases le_total a.start_time b.start_time with hs | hs <;> simp [h, hs]
  · simp [h]

/-- C8: the top-N listing is sorted descending by duration with ties broken
by the earlier start time; it is the N-record prefix of the full sorted
inventory, which is a permutation of the inventory; and recomputing it on
identical input yields the identical list (the detector is a pure function
of the inventory). -/
theorem largestGaps_sorted_deterministic (n : ℕ) (recs : List GapRecord) :
    (largestGaps n recs).Pairwise (fun a b =>
      b.length_minutes < a.length_minutes ∨
        (a.length_minutes = b.length_minutes ∧ a.start_time ≤ b.start_time)) ∧
    (largestGaps n recs).Sublist (recs.mergeSort gapBefore) ∧
    (recs.mergeSort gapBefore).Perm recs ∧
    (∀ recs2 : List GapRecord, recs2 = recs → largestGaps n recs2 = largestGaps n recs) := by
  refine ⟨?_, ?_, List.mergeSort_perm recs gapBefore, ?_⟩
  · have hs := List.sorted_mergeSort gapBefore_trans gapBefore_total recs
    have hsub : (largestGaps n recs).Sublist (recs.mergeSort gapBefore) :=
      List.take_sublist n _
    exact (List.Pairwise.sublist hsub hs).imp (fun h => of_decide_eq_true h)
  · exact List.take_sublist n _
  · intro recs2 h
    rw [h]

/-! ### Meal-quality classification

Modelled from the spec: the classifier of `src/analysis/meals.py` /
`src/analysis/config.py` is not part of the sources; the spec and the
documented quality categories give the ordered decision table below with the
default thresholds of `MealAnalysisConfig`. -/

inductive MealQuality where
  | Clean
  | Usable
  | Borderline
  | Unusable
deriving DecidableEq

structure MealAnalysisConfig where
  min_carbs : ℚ
  window_hours : ℚ
  max_missing_pct : ℚ
  max_gap_minutes : ℚ
  usable_missing_pct : ℚ
  usable_gap_minutes : ℚ

/-- The documented defaults: significant meal 20 g, 4-hour window, Unusable
above 20% missing or a gap over 25 minutes, Usable up to 10% missing and
gaps up to 15 minutes. -/
def defaultMealConfig : MealAnalysisConfig := ⟨20, 4, 20, 25, 10, 15⟩

/-- Modelled from the spec: first-matching-rule evaluation of a meal window,
given its missing percentage, longest in-window gap in minutes, and the raw
counts of missing points and of gaps; returns the tier and the skip flag. -/
def classifyMealQuality (cfg : MealAnalysisConfig) (missing_pct max_gap : ℚ)
    (missing_count gap_count : ℕ) : MealQuality × Bool :=
  if missing_pct > cfg.max_missing_pct ∨ max_gap > cfg.max_gap_minutes then
    (MealQuality.Unusable, true)
  else if missing_count = 0 ∧ gap_count = 0 then (MealQuality.Clean, false)
  else if missing_pct ≤ cfg.usable_missing_pct ∧ max_gap ≤ cfg.usable_gap_minutes then
    (MealQuality.Usable, false)
  else (MealQuality.Borderline, false)

/-- C5: under the default thresholds the classifier realises exactly the
claimed first-matching-rule table — Unusable with skip when missing
percentage exceeds 20 or the longest gap exceeds 25 minutes; else Clean
without skip when nothing is missing; else Usable without skip when missing
percentage is at most 10 and the longest gap at most 15 minutes; else
Borderline without skip — and the skip flag is set exactly on Unusable. -/
theorem classifyMealQuality_decision_table (mp mg : ℚ) (mc gc : ℕ) :
    (classifyMealQuality defaultMealConfig mp mg mc gc = (MealQuality.Unusable, true) ↔
      (mp > 20 ∨ mg > 25)) ∧
    (classifyMealQuality defaultMealConfig mp mg mc gc = (MealQuality.Clean, false) ↔
      (¬(mp > 20 ∨ mg > 25) ∧ mc = 0 ∧ gc = 0)) ∧
    (classifyMealQuality defaultMealConfig mp mg mc gc = (MealQuality.Usable, false) ↔
      (¬(mp > 20 ∨ mg > 25) ∧ ¬(mc = 0 ∧ gc = 0) ∧ mp ≤ 10 ∧ mg ≤ 15)) ∧
    (classifyMealQuality defaultMealConfig mp mg mc gc = (MealQuality.Borderline, false) ↔
      (¬(mp > 20 ∨ mg > 25) ∧ ¬(mc = 0 ∧ gc = 0) ∧ ¬(mp ≤ 10 ∧ mg ≤ 15))) ∧
    ((classifyMealQuality defaultMealConfig mp mg mc gc).2 = true ↔
      (classifyMealQuality defaultMealConfig mp mg mc gc).1 = MealQuality.Unusable) := by
  unfold classifyMealQuality defaultMealConfig
  split_ifs with h1 h2 h3 <;> simp_all [Prod.ext_iff]

/-! ### Insulin dose classification (`InsulinProcessor.process_type`)

Only positive doses are kept; `is_bolus = value <= bolus_limit` and
`is_basal = (value > bolus_limit) & (value <= max_limit)`.  Metadata, when it
names a recognised insulin, overrides both flags at once
(`_extract_meta_info`: "novorapid" gives (bolus, not basal), "levemir" gives
(basal, not bolus), anything else changes nothing). -/

inductive MetaInsulin where
  | novorapid
  | levemir
  | unknown
deriving DecidableEq

/-- Shallow embedding of `InsulinProcessor._extract_meta_info`, keyed by
which recognised substring the meta JSON's insulin field contains:
(is_bolus, is_basal, insulin type). -/
def extractMetaInfo (m : MetaInsulin) : Bool × Bool × Option MetaInsulin :=
  match m with
  | MetaInsulin.novorapid => (true, false, some MetaInsulin.novorapid)
  | MetaInsulin.levemir => (false, true, some MetaInsulin.levemir)
  | MetaInsulin.unknown => (false, false, none)

/-- The dose-rule part of `InsulinProcessor.process_type`: drop non-positive
doses, then flag each remaining dose. -/
def classifyDoses (rows : List (ℤ × ℚ)) (bolus_limit max_limit : ℚ) : List InsulinRow :=
  (rows.filter (fun r => r.2 > 0)).map (fun r =>
    ⟨r.1, r.2, decide (bolus_limit < r.2 ∧ r.2 ≤ max_limit), decide (r.2 ≤ bolus_limit)⟩)

/-- The metadata update: when the meta names a recognised insulin type, both
flags are overwritten; otherwise the row is unchanged. -/
def applyMeta (r : InsulinRow) (m : MetaInsulin) : InsulinRow :=
  match extractMetaInfo m with
  | (b, ba, some _) => ⟨r.ts, r.dose, ba, b⟩
  | (_, _, none) => r

/-- C10: the two flags are never both set: the dose rules flag bolus exactly
for doses in (0, bolus_limit] and basal exactly for doses in
(bolus_limit, max_limit]; a dose above max_limit gets neither flag; and a
metadata override sets exactly one of the two flags while unrecognised
metadata changes nothing. -/
theorem insulin_flags_exclusive (rows : List (ℤ × ℚ)) (bolus_limit max_limit : ℚ)
    (hbm : bolus_limit ≤ max_limit) :
    ∀ r ∈ classifyDoses rows bolus_limit max_limit,
      (¬(r.is_bolus = true ∧ r.is_basal = true)) ∧
      (r.is_bolus = true ↔ 0 < r.dose ∧ r.dose ≤ bolus_limit) ∧
      (r.is_basal = true ↔ bolus_limit < r.dose ∧ r.dose ≤ max_limit) ∧
      (max_limit < r.dose → r.is_bolus = false ∧ r.is_basal = false) ∧
      (∀ m : MetaInsulin, m ≠ MetaInsulin.unknown →
        (applyMeta r m).is_bolus ≠ (applyMeta r m).is_basal) ∧
      (applyMeta r MetaInsulin.unknown = r) := by
  intro r hr
  rw [classifyDoses, List.mem_map] at hr
  obtain ⟨s, hs, rfl⟩ := hr
  have hpos : 0 < s.2 := by
    have := List.of_mem_filter hs
    exact of_decide_eq_true this
  refine ⟨?_, ?_, ?_, ?_, ?_, ?_⟩
  · rintro ⟨hb, ha⟩
    rw [decide_eq_true_iff] at hb ha
    exact absurd ha.1 (not_lt.mpr hb)
  · simp only [decide_eq_true_iff]
    constructor
    · intro h; exact ⟨hpos, h⟩
    · intro h; exact h.2
  · simp only [decide_eq_true_iff]
  · intro hmax
    constructor
    · rw [decide_eq_false_iff_not]
      intro h
      exact absurd hmax (not_lt.mpr (le_trans h hbm))
    · rw [decide_eq_false_iff_not]
      rintro ⟨_, h2⟩
      exact absurd hmax (not_lt.mpr h2)
  · intro m hm
    cases m with
    | novorapid => simp [applyMeta, extractMetaInfo]
    | levemir => simp [applyMeta, extractMetaInfo]
    | unknown => exact absurd rfl hm
  · rfl

/-- C10 witness: doses 5 (bolus), 10 (basal) and 20 (neither) under the
default limits 8 and 15. -/
theorem insulin_flags_exclusive_witness :
    (8:ℚ) ≤ 15 ∧
      ∀ r ∈ classifyDoses [(0, 5), (1, 10), (2, 20)] 8 15,
        (¬(r.is_bolus = true ∧ r.is_basal = true)) ∧
        (r.is_bolus = true ↔ 0 < r.dose ∧ r.dose ≤ 8) ∧
        (r.is_basal = true ↔ 8 < r.dose ∧ r.dose ≤ 15) ∧
        (15 < r.dose → r.is_bolus = false ∧ r.is_basal = false) ∧
        (∀ m : MetaInsulin, m ≠ MetaInsulin.unknown →
          (applyMeta r m).is_bolus ≠ (applyMeta r m).is_basal) ∧
        (applyMeta r MetaInsulin.unknown = r) :=
  ⟨by norm_num, insulin_flags_exclusive [(0, 5), (1, 10), (2, 20)] 8 15 (by norm_num)⟩
